import Mathlib

/-
Formal model of the capnweb map protocol and the lite RPC session.

The development shallowly embeds the TypeScript sources:
  src/map.ts        (MapBuilder, MapVariableHook, MapApplicator, sendMap, applyMap)
  src/lite/index.ts (RpcSessionImpl.handleRelease, Serializer.evaluateObject)
  src/lite/utils.ts (followPath)
Machinery from core.js and serialize.js (StubHook, RpcPayload, Devaluator,
Evaluator) is not part of the sources; where a definition depends on it, the
definition is modelled from the specification and says so in its doc comment.
-/

namespace Capnweb

/-- Property path elements are strings or numbers, as in the PropertyPath type. -/
inductive PathPart where
  | str (s : String)
  | num (n : Int)
deriving DecidableEq

/-- Host values of the modelled fragment: the JSON-like data that map callbacks
and followPath manipulate, plus abstract function values identified by a number.
Dates, byte buffers, errors, bigints and stubs are omitted; no claim in this
development depends on them. -/
inductive Value where
  | vnull
  | vundefined
  | vbool (b : Bool)
  | vnum (n : Int)
  | vstr (s : String)
  | varr (elems : List Value)
  | vobj (fields : List (String × Value))
  | vfun (fid : Nat)

/-- Own enumerable and non-enumerable members of Object.prototype, the set the
code tests with the JavaScript expression: part in Object.prototype. -/
def objectPrototypeKeys : List String :=
  ["constructor", "hasOwnProperty", "isPrototypeOf", "propertyIsEnumerable",
   "toLocaleString", "toString", "valueOf", "__proto__",
   "__defineGetter__", "__defineSetter__", "__lookupGetter__", "__lookupSetter__"]

/-- The check: part in Object.prototype. Numeric parts are never members. -/
def partInObjectPrototype : PathPart → Bool
  | .str s => objectPrototypeKeys.contains s
  | .num _ => false

/-- Key used when a path part indexes an object; JavaScript coerces numbers to
strings for property access. -/
def pathPartKey : PathPart → String
  | .str s => s
  | .num n => toString n

/-- Own-property access on an object value; absent keys give undefined, as
Object.hasOwn followed by indexing does. -/
def objOwn (fields : List (String × Value)) (part : PathPart) : Value :=
  (fields.lookup (pathPartKey part)).getD .vundefined

/-- Array indexing restricted to non-negative integer parts, as in the array
case of followPath; anything else gives undefined. -/
def arrIndex (elems : List Value) : PathPart → Value
  | .num n => if 0 ≤ n then (elems.get? n.toNat).getD .vundefined else .vundefined
  | .str _ => .vundefined

/-- Message for the TypeError the JavaScript engine raises when a property of
undefined is read (the intentionally produced TypeError in followPath). -/
def undefinedAccessMsg : String := "TypeError: Cannot read properties of undefined"

/-- Model of followPath from src/lite/utils.ts, restricted to the modelled
value fragment. Each loop iteration first applies the Object.prototype check,
which replaces the value by undefined and continues; then it switches on the
kind of the value exactly as typeForRpc classifies the modelled constructors
(vobj is object, vfun is function, varr is array, vnull/vbool/vnum/vstr are
primitive, vundefined is undefined). Function values are modelled without own
properties. -/
def followPath : Value → List PathPart → Except String Value
  | v, [] => .ok v
  | v, part :: rest =>
    if partInObjectPrototype part then
      followPath .vundefined rest
    else
      match v with
      | .vobj fields => followPath (objOwn fields part) rest
      | .vfun _ => followPath .vundefined rest
      | .varr elems => followPath (arrIndex elems part) rest
      | .vnull => followPath .vundefined rest
      | .vbool _ => followPath .vundefined rest
      | .vnum _ => followPath .vundefined rest
      | .vstr _ => followPath .vundefined rest
      | .vundefined => .error undefinedAccessMsg

/-- Host call semantics: invoking the abstract function with the given id on a
list of arguments. The map machinery is parametric in it; both direct
execution and replay consult the same host. -/
def HostCall : Type := Nat → List Value → Except String Value

/-- Modelled from the spec: evaluating a pipeline call follows the path to the
target, requires it to be callable, and invokes it (the Evaluator of
serialize.js is not among the sources; the unnamed serializer fragment applies
followPath to the subject, asserts the target is callable, and calls it). -/
def callValue (host : HostCall) (v : Value) (path : List PathPart) (args : List Value) :
    Except String Value :=
  match followPath v path with
  | .ok (.vfun f) => host f args
  | .ok _ => .error "Target is not callable"
  | .error m => .error m

/-- MapInstruction from src/map.ts restricted to the pipeline forms: a property
access (args absent) or a method call (args present). Arguments are concrete
data values; the codec roundtrip for hook-free data is the identity, so the
devaluated argument list is represented by the values themselves. -/
inductive Instr where
  | pipeline (subject : Int) (path : List PathPart) (args : Option (List Value))

/-- MapApplicator.getExport from src/map.ts: a non-negative index reads the
variables list, a negative index idx reads captures at position -idx-1.
JavaScript out-of-range indexing yields undefined, modelled as none. -/
def getExport {α : Type} (vlist captures : List α) (idx : Int) : Option α :=
  if idx < 0 then captures.get? (-idx - 1).toNat else vlist.get? idx.toNat

/-- Value-level evaluation of one map instruction: look up the subject through
getExport (a missing entry is the Import ID not found failure of the
serializer fragment), then either follow the property path or perform the
call. This is the value content of evaluating a pipeline instruction during
replay, with the transient payload-and-stub wrapping collapsed. -/
def evalInstrP (host : HostCall) (caps vars : List Value) : Instr → Except String Value
  | .pipeline subj path args =>
    match getExport vars caps subj with
    | none => .error "Import ID not found"
    | some v =>
      match args with
      | none => followPath v path
      | some a => callValue host v path a

/-- Value-level model of the loop of MapApplicator.apply from src/map.ts: an
empty list is the Invalid empty mapper function failure; every instruction but
the last is evaluated and its result appended to the variables; the last
instruction produces the result. -/
def runInstrs (host : HostCall) (caps : List Value) : List Instr → List Value → Except String Value
  | [], _ => .error "Invalid empty mapper function."
  | i :: rest, vars =>
    match rest with
    | [] => evalInstrP host caps vars i
    | _ :: _ =>
      match evalInstrP host caps vars i with
      | .ok v => runInstrs host caps rest (vars ++ [v])
      | .error m => .error m

/-- MapApplicator.apply at the value level: variables start as the single
concrete input (index 0) and the instructions are replayed over them. -/
def applyPure (host : HostCall) (caps : List Value) (input : Value) (instrs : List Instr) :
    Except String Value :=
  runInstrs host caps instrs [input]

/-- Evaluation of a list of instructions that appends every result to the
variables (the non-final part of the replay loop); used to reason about
initial segments of the recorded program. -/
def extendVars (host : HostCall) (caps : List Value) : List Instr → List Value → Except String (List Value)
  | [], vars => .ok vars
  | i :: rest, vars =>
    match evalInstrP host caps vars i with
    | .ok v => extendVars host caps rest (vars ++ [v])
    | .error m => .error m

/-- A map callback that performs only property accesses and method calls on
the placeholder: the shape of what the recorded function does,
starting from the input placeholder (MapBuilder.makeInput, index 0). -/
inductive CExpr where
  | input
  | get (subj : CExpr) (path : List PathPart)
  | call (subj : CExpr) (path : List PathPart) (args : List Value)

/-- Recording by MapBuilder.pushGet and MapBuilder.pushCall from src/map.ts:
the subject placeholder is recorded first; the new instruction is appended and
the returned placeholder index is the length of the instruction list after the
push. MapBuilder.capture returns the index of an own placeholder unchanged, so
the subject index is the recursive result. -/
def recExpr : CExpr → List Instr → Nat × List Instr
  | .input, ins => (0, ins)
  | .get s p, ins =>
    let r := recExpr s ins
    (r.2.length + 1, r.2 ++ [.pipeline (r.1 : Int) p none])
  | .call s p a, ins =>
    let r := recExpr s ins
    (r.2.length + 1, r.2 ++ [.pipeline (r.1 : Int) p (some a)])

/-- Recording a whole callback, as sendMap and MapBuilder.makeOutput do: the
body is recorded from an empty instruction list, and the devaluation of the
returned placeholder becomes the final instruction. Modelled from the spec: a
promise hook being actively pipelined devaluates to a pipeline instruction
naming its variable index with an empty path. -/
def record (f : CExpr) : List Instr :=
  let r := recExpr f []
  r.2 ++ [.pipeline (r.1 : Int) [] none]

/-- Direct execution of the callback against a concrete input: property
accesses follow the path on the current value and method calls follow the path
and invoke the host function, with no recording involved. -/
def denote (host : HostCall) (input : Value) : CExpr → Except String Value
  | .input => .ok input
  | .get s p =>
    match denote host input s with
    | .ok v => followPath v p
    | .error m => .error m
  | .call s p a =>
    match denote host input s with
    | .ok v => callValue host v p a
    | .error m => .error m

/-- An apostrophe character, used to spell the error messages of the source. -/
def apos : String := String.singleton (Char.ofNat 39)

/-- Message thrown by mapImpl.applyMap when the input is an RpcPromise. -/
def applyMapPromiseMsg : String := "applyMap() can" ++ apos ++ "t be called on RpcPromise"

/-- Message thrown by MapApplicator.apply on an empty instruction list. -/
def emptyMapperMsg : String := "Invalid empty mapper function."

/-- Resource events: hooks are identified by allocation order, and the log
records every construction and every dispose call. -/
inductive TEvent where
  | created (id : Nat)
  | disposed (id : Nat)
deriving DecidableEq

/-- Allocation state and event log threaded through the traced replay. -/
structure Trace where
  nextId : Nat
  log : List TEvent

/-- What a hook refers to: a PayloadStubHook owning a concrete value, or an
remote capability (a capture hook handed in by the session). -/
inductive HkVal where
  | pay (v : Value)
  | ext

/-- A hook with its identity; dup and dispose act on the id. -/
structure Hk where
  id : Nat
  val : HkVal

/-- Allocate a fresh hook and log its creation. -/
def freshHk (hv : HkVal) (t : Trace) : Hk × Trace :=
  (⟨t.nextId, hv⟩, ⟨t.nextId + 1, t.log ++ [.created t.nextId]⟩)

/-- One dispose call on a hook. -/
def dispose (h : Hk) (t : Trace) : Trace :=
  { t with log := t.log ++ [.disposed h.id] }

/-- Dispose every hook of a list, in order (the loops in MapApplicator.apply,
MapApplicator.dispose and the finally of mapImpl.applyMap). -/
def disposeAll (hs : List Hk) (t : Trace) : Trace :=
  hs.foldl (fun acc h => dispose h acc) t

/-- Traced evaluation of one instruction: the subject hook comes from
getExport; a payload hook resolves the path or call over its owned value and
wraps the result in a fresh hook (hook get and call return new hooks); an
remote hook subject yields a fresh remote hook with no local value. -/
def evalInstrTr (host : HostCall) (caps vars : List Hk) (i : Instr) (t : Trace) :
    Except String Hk × Trace :=
  match i with
  | .pipeline subj path args =>
    match getExport vars caps subj with
    | none => (.error "Import ID not found", t)
    | some h =>
      match h.val, args with
      | .pay v, none =>
        match followPath v path with
        | .ok w => let f := freshHk (.pay w) t; (.ok f.1, f.2)
        | .error m => (.error m, t)
      | .pay v, some a =>
        match callValue host v path a with
        | .ok w => let f := freshHk (.pay w) t; (.ok f.1, f.2)
        | .error m => (.error m, t)
      | .ext, _ => let f := freshHk .ext t; (.ok f.1, f.2)

/-- The try-block of MapApplicator.apply: reject the empty list; evaluate each
non-final instruction, pushing the resulting hook onto the variables (payload
values in this model contain no stubs, so the unwrap-single-stub optimization
never fires and each step contributes one hook); evaluate the final
instruction as the result without pushing it. The variables list reached at
exit is returned so that the cleanup code can run over it. -/
def runBody (host : HostCall) (caps : List Hk) :
    List Instr → List Hk → Trace → (List Hk × Except String Hk) × Trace
  | [], vars, t => ((vars, .error emptyMapperMsg), t)
  | i :: rest, vars, t =>
    match rest with
    | [] =>
      let r := evalInstrTr host caps vars i t
      ((vars, r.1), r.2)
    | _ :: _ =>
      match evalInstrTr host caps vars i t with
      | (.ok h, t1) => runBody host caps rest (vars ++ [h]) t1
      | (.error m, t1) => ((vars, .error m), t1)

/-- Result of MapApplicator.apply together with the applicator state it leaves
behind: the surviving variables list (MapApplicator keeps it after apply
returns) and the trace. -/
structure ApplyOut where
  result : Except String Hk
  vars : List Hk
  trace : Trace

/-- MapApplicator.apply from src/map.ts with resource tracing: run the body,
then the finally block disposes every variable, successful or not. -/
def applyInstrs (host : HostCall) (caps : List Hk) (input : Hk) (instrs : List Instr)
    (t : Trace) : ApplyOut :=
  let b := runBody host caps instrs [input] t
  { result := b.1.2, vars := b.1.1, trace := disposeAll b.1.1 b.2 }

/-- applyMapToElement from src/map.ts: wrap the element in a fresh input hook
(PayloadStubHook over a deep copy), run apply, and in the finally call
MapApplicator.dispose, which loops over the same variables list once more. -/
def applyMapToElement (host : HostCall) (caps : List Hk) (instrs : List Instr)
    (input : Value) (t : Trace) : Except String Hk × Trace :=
  let ih := freshHk (.pay input) t
  let a := applyInstrs host caps ih.1 instrs ih.2
  (a.result, disposeAll a.vars a.trace)

/-- The input of mapImpl.applyMap: either an RpcPromise or a concrete value. -/
inductive MapInput where
  | promise
  | value (v : Value)

/-- The payload mapImpl.applyMap wraps in its resulting PayloadStubHook: a
sequence of per-element payloads (RpcPayload.fromArray), one payload from a
single application, or the raw passthrough value for null and undefined. -/
inductive RPayload where
  | arr (elems : List Hk)
  | one (h : Hk)
  | raw (v : Value)

/-- The element loop of mapImpl.applyMap: payloads accumulate in order; when
an element fails, the payloads collected so far are disposed and the error is
rethrown. -/
def applyElems (host : HostCall) (caps : List Hk) (instrs : List Instr) :
    List Value → List Hk → Trace → Except String (List Hk) × Trace
  | [], acc, t => (.ok acc, t)
  | e :: es, acc, t =>
    match applyMapToElement host caps instrs e t with
    | (.ok p, t1) => applyElems host caps instrs es (acc ++ [p]) t1
    | (.error m, t1) => (.error m, disposeAll acc t1)

/-- Per-element application stated as a plain recursion, used to express what
the array case of applyMap computes: apply to the head, then to the tail, and
cons the payloads in element order. -/
def applyElemsSpec (host : HostCall) (caps : List Hk) (instrs : List Instr) :
    List Value → Trace → Except String (List Hk) × Trace
  | [], t => (.ok [], t)
  | e :: es, t =>
    match applyMapToElement host caps instrs e t with
    | (.ok p, t1) =>
      match applyElemsSpec host caps instrs es t1 with
      | (.ok ps, t2) => (.ok (p :: ps), t2)
      | (.error m, t2) => (.error m, t2)
    | (.error m, t1) => (.error m, t1)

/-- mapImpl.applyMap from src/map.ts: reject promises; map arrays per element
and reassemble; pass null and undefined through; otherwise apply once. The
finally block disposes every capture exactly once whatever the outcome. -/
def applyMap (host : HostCall) (caps : List Hk) (instrs : List Instr) (inp : MapInput)
    (t : Trace) : Except String RPayload × Trace :=
  let body : Except String RPayload × Trace :=
    match inp with
    | .promise => (.error applyMapPromiseMsg, t)
    | .value v =>
      match v with
      | .varr elems =>
        match applyElems host caps instrs elems [] t with
        | (.ok ps, t1) => (.ok (.arr ps), t1)
        | (.error m, t1) => (.error m, t1)
      | .vnull => (.ok (.raw .vnull), t)
      | .vundefined => (.ok (.raw .vundefined), t)
      | w =>
        match applyMapToElement host caps instrs w t with
        | (.ok h, t1) => (.ok (.one h), t1)
        | (.error m, t1) => (.error m, t1)
  (body.1, disposeAll caps body.2)

/-- Number of dispose calls a given hook id received in a log. -/
def disposeCount (l : List TEvent) (id : Nat) : Nat :=
  (l.filter (fun e =>
    match e with
    | .disposed j => j == id
    | .created _ => false)).length

/-- Inputs that applyMap treats specially: arrays, null and undefined. -/
def isSpecialInput : Value → Bool
  | .varr _ => true
  | .vnull => true
  | .vundefined => true
  | _ => false

/-- A host that is never consulted; used for concrete runs without calls. -/
def host0 : HostCall := fun _ _ => .error "no host call"

/-- What the user callback handed to sendMap does when invoked on the
placeholder: either it returns synchronously, having performed the recorded
operations, or it returns a pending Promise (an async callback); the flag
records whether the pending value later rejects. -/
inductive CbRet where
  | sync (e : CExpr)
  | asyncPending (rejectsLater : Bool)

/-- Message thrown by mapImpl.sendMap for an async callback. -/
def asyncCallbackMsg : String := "RPC map() callbacks cannot be async."

/-- Outcome of mapImpl.sendMap: what it returns or throws synchronously, and
whether a no-operation rejection handler was attached to a pending result
(result.catch with an empty handler), which silences its rejection. -/
structure SendMapResult where
  recorded : Except String (List Instr)
  silenced : Bool

/-- mapImpl.sendMap from src/map.ts: run the callback against the placeholder;
if the result is a Promise, attach an empty catch handler to squelch its
rejection and throw the async-misuse error synchronously; otherwise record the
output through MapBuilder.makeOutput. -/
def sendMap (cb : CbRet) : SendMapResult :=
  match cb with
  | .sync e => { recorded := .ok (record e), silenced := false }
  | .asyncPending _ => { recorded := .error asyncCallbackMsg, silenced := true }

/-- Hooks as the MapBuilder sees them: the placeholder variables of some
builder (identified by the owning builder id and the variable index), or any
other hook from the enclosing scope; equality models object identity. -/
inductive BHook where
  | mapVar (owner : Nat) (idx : Nat)
  | ext (id : Nat)
deriving DecidableEq

/-- MapBuilder state from src/map.ts: the top-level context stores captured
hooks directly, a nested context stores parent capture indices and points at
its parent builder; both carry the identity map from hook to its assigned
negative index. -/
inductive MB where
  | top (id : Nat) (captureMap : List (BHook × Int)) (captures : List BHook)
  | nested (id : Nat) (captureMap : List (BHook × Int)) (captures : List Int) (parent : MB)

/-- Identity of a builder, modelling the object identity tested by the
expression: hook.mapper === this. -/
def MB.mbId : MB → Nat
  | .top i _ _ => i
  | .nested i _ _ _ => i

/-- Owning builder of a hook, when it is a placeholder. -/
def hookOwner : BHook → Option Nat
  | .mapVar o _ => some o
  | .ext _ => none

/-- Variable index of a placeholder hook (unused for other hooks). -/
def hookIdx : BHook → Nat
  | .mapVar _ k => k
  | .ext _ => 0

/-- MapBuilder.capture from src/map.ts: an own placeholder returns its index
unchanged; otherwise the capture map is consulted; on a miss the hook (or, in
a nested builder, the index obtained by capturing in the parent) is appended
to the captures and the new negative index -captures.length is returned and
memoized. -/
def MB.capture : MB → BHook → Int × MB
  | .top i cm caps, h =>
    if hookOwner h = some i then ((hookIdx h : Int), .top i cm caps)
    else
      match cm.lookup h with
      | some r => (r, .top i cm caps)
      | none =>
        let caps2 := caps ++ [h]
        let r : Int := -(caps2.length : Int)
        (r, .top i ((h, r) :: cm) caps2)
  | .nested i cm caps p, h =>
    if hookOwner h = some i then ((hookIdx h : Int), .nested i cm caps p)
    else
      match cm.lookup h with
      | some r => (r, .nested i cm caps p)
      | none =>
        let pr := MB.capture p h
        let caps2 := caps ++ [pr.1]
        let r : Int := -(caps2.length : Int)
        (r, .nested i ((h, r) :: cm) caps2 pr.2)

/-- Invariant of reachable builders: every memoized capture index is negative,
at every level of the builder stack. -/
def mbInv : MB → Bool
  | .top _ cm _ => cm.all (fun p => p.2 < 0)
  | .nested _ cm _ p => cm.all (fun p => p.2 < 0) && mbInv p

/-- Message thrown by MapBuilder.exportStub and exportPromise. -/
def exportStubMsg : String :=
  "Can" ++ apos ++ "t construct an RpcTarget or RPC callback inside a mapper function. " ++
  "Try creating a new RpcStub outside the callback first, then using it inside the callback."

/-- MapBuilder.exportStub from src/map.ts: always throws. -/
def MB.exportStub (_b : MB) (_h : BHook) : Except String Int := .error exportStubMsg

/-- MapBuilder.exportPromise from src/map.ts: delegates to exportStub. -/
def MB.exportPromise (b : MB) (h : BHook) : Except String Int := b.exportStub h

/-- MapBuilder.getImport from src/map.ts: delegates to capture and always
returns an index. -/
def MB.getImport (b : MB) (h : BHook) : Int × MB := b.capture h

/-- An entry in the exports table of the lite session: the target (an abstract
identity) and its reference count. -/
structure ExportEntry where
  target : Nat
  refcount : Int
deriving DecidableEq

/-- The parts of RpcSessionImpl state that handleRelease touches: the
callResults table keyed by positive ids, the exports table keyed by negative
ids, and the reverse index from target to export id. -/
structure SessionSt where
  callResults : List Int
  exports : List (Int × ExportEntry)
  exportIdsByTarget : List (Nat × Int)
deriving DecidableEq

/-- RpcSessionImpl.handleRelease from src/lite/index.ts: the message must
carry a positive count; id 0 is the bootstrap object and cannot be released;
a positive id deletes the call result; a negative id decrements the refcount
of the export entry if present, failing if the count would go negative and
removing the entry (and its reverse-index entry) when the count reaches 0. -/
def handleRelease (id n : Int) (s : SessionSt) : Except String SessionSt :=
  if ¬ 0 < n then .error "Invalid release message"
  else if id = 0 then .error "Attempting to release bootstrap object"
  else if 0 < id then .ok { s with callResults := s.callResults.erase id }
  else
    match s.exports.lookup id with
    | none => .ok s
    | some e =>
      if e.refcount < n then .error "Refcount would go negative"
      else if e.refcount - n = 0 then
        .ok { s with
          exports := s.exports.filter (fun p => p.1 != id),
          exportIdsByTarget := s.exportIdsByTarget.filter (fun p => p.1 != e.target) }
      else
        .ok { s with
          exports := s.exports.map (fun p =>
            if p.1 == id then (p.1, ⟨e.target, e.refcount - n⟩) else p) }

/-- Leaf wire expressions of the lite codec fragment: JSON primitives, the
undefined instruction, an import (pipeline form carrying an optional path, as
the destructuring in evaluatePipeline reads it), and an export carrying an
in-process target. -/
inductive WLeaf where
  | lnull
  | lbool (b : Bool)
  | lnum (n : Int)
  | lstr (s : String)
  | lundefined
  | limp (id : Int) (path : Option (List PathPart))
  | lexp (target : Nat)

/-- Wire expressions that may appear as object field values in the modelled
fragment: a leaf or an escaped array of leaves. Deeper nesting is omitted; the
drop-but-evaluate rule of evaluateObject does not depend on nesting depth. -/
inductive WExpr where
  | leaf (x : WLeaf)
  | escArr (elems : List WLeaf)

/-- Values the lite evaluator produces in the modelled fragment: primitives,
undefined, a stub for a resolved import, the numeric id an export evaluates
to, and arrays. -/
inductive WValue where
  | wnull
  | wbool (b : Bool)
  | wnum (n : Int)
  | wstr (s : String)
  | wundefined
  | wstub (id : Int)
  | warr (elems : List WValue)

/-- Events of the lite evaluator that matter for hook accounting: a call of
the import table (resolving a hook) and a call of export (allocating or
retaining an entry). -/
inductive WEvent where
  | imported (id : Int)
  | exported (target : Nat)
deriving DecidableEq

/-- Environment of the lite Serializer: whether an import id is present in the
imports table, and the id that export returns for a target. Only the events
matter to the claims; the allocation policy itself is abstracted. -/
structure LiteEnv where
  imports : Int → Bool
  exportId : Nat → Int

/-- Evaluation of a leaf by the lite Serializer: primitives pass through;
an import without a path fails the path assertion of evaluatePipeline before
the table is consulted; with a path, import(id) is called (logged) and throws
when the id is absent; an export logs the export call and evaluates to the
returned number. -/
def wEvalLeaf (env : LiteEnv) : WLeaf → List WEvent → Except String WValue × List WEvent
  | .lnull, l => (.ok .wnull, l)
  | .lbool b, l => (.ok (.wbool b), l)
  | .lnum n, l => (.ok (.wnum n), l)
  | .lstr s, l => (.ok (.wstr s), l)
  | .lundefined, l => (.ok .wundefined, l)
  | .limp id pth, l =>
    match pth with
    | none => (.error "Invalid path", l)
    | some _ =>
      let l1 := l ++ [.imported id]
      if env.imports id then (.ok (.wstub id), l1)
      else (.error ("Import ID not found: " ++ toString id), l1)
  | .lexp tg, l => (.ok (.wnum (env.exportId tg)), l ++ [.exported tg])

/-- Left-to-right evaluation of the leaves of an escaped array, as
evaluateArray maps evaluate over the elements. -/
def wEvalLeafList (env : LiteEnv) : List WLeaf → List WEvent → Except String (List WValue) × List WEvent
  | [], l => (.ok [], l)
  | e :: rest, l =>
    match wEvalLeaf env e l with
    | (.ok v, l1) =>
      match wEvalLeafList env rest l1 with
      | (.ok vs, l2) => (.ok (v :: vs), l2)
      | (.error m, l2) => (.error m, l2)
    | (.error m, l1) => (.error m, l1)

/-- Evaluation of a field value by Serializer.evaluate: dispatch on the
expression form. -/
def wEvalExpr (env : LiteEnv) : WExpr → List WEvent → Except String WValue × List WEvent
  | .leaf x, l => wEvalLeaf env x l
  | .escArr es, l =>
    match wEvalLeafList env es l with
    | (.ok vs, l1) => (.ok (.warr vs), l1)
    | (.error m, l1) => (.error m, l1)

/-- The forbidden keys of Serializer.evaluateObject: any key present in
Object.prototype, and toJSON. -/
def isForbiddenKey (k : String) : Bool :=
  objectPrototypeKeys.contains k || k == "toJSON"

/-- Serializer.evaluateObject from src/lite/index.ts: iterate the keys in
order; a forbidden key has its value evaluated (so any contained stubs are
still processed) and is then deleted; every other key is assigned the
evaluation of its value. -/
def evaluateObject (env : LiteEnv) :
    List (String × WExpr) → List WEvent → Except String (List (String × WValue)) × List WEvent
  | [], l => (.ok [], l)
  | (k, v) :: rest, l =>
    if isForbiddenKey k then
      match wEvalExpr env v l with
      | (.ok _, l1) => evaluateObject env rest l1
      | (.error m, l1) => (.error m, l1)
    else
      match wEvalExpr env v l with
      | (.ok w, l1) =>
        match evaluateObject env rest l1 with
        | (.ok res, l2) => (.ok ((k, w) :: res), l2)
        | (.error m, l2) => (.error m, l2)
      | (.error m, l1) => (.error m, l1)

/-- A concrete lite environment for witnesses: only import id 3 is present. -/
def envW : LiteEnv := ⟨fun i => i == 3, fun _ => -1⟩

/-- Empty paths return the value unchanged. -/
theorem followPath_nil (v : Value) : followPath v [] = .ok v := rfl

/-- C8 counterexample: following the path toString on the object with the
single field a does not raise any error; it evaluates to ok undefined, so a
path element colliding with a root-prototype member is not surfaced as a
PathError. -/
theorem c8_counterexample :
    followPath (.vobj [("a", .vnum 1)]) [.str "toString"] = .ok .vundefined := rfl

/-- C8 (amended): a path element that collides with a root-object prototype
member does not raise an error; followPath replaces the current value by
undefined and continues with the rest of the path (a later element can then
only fail with the ordinary TypeError for reading a property of undefined). -/
theorem c8_prototype_element_yields_undefined (v : Value) (part : PathPart)
    (rest : List PathPart) (h : partInObjectPrototype part = true) :
    followPath v (part :: rest) = followPath .vundefined rest := by
  simp [followPath, h]

/-- C8 witness: the amended statement applied to the element toString on the
empty object. -/
theorem c8_witness :
    partInObjectPrototype (.str "toString") = true ∧
    followPath (.vobj []) [.str "toString"] = followPath .vundefined [] :=
  ⟨by decide, c8_prototype_element_yields_undefined _ _ _ (by decide)⟩

/-- C3 counterexample: for an async callback, sendMap throws the message
RPC map() callbacks cannot be async., which is not the message the claim
states. -/
theorem c3_counterexample :
    (sendMap (.asyncPending true)).recorded = .error asyncCallbackMsg ∧
    asyncCallbackMsg ≠ "map callbacks cannot be asynchronous" :=
  ⟨rfl, by decide⟩

/-- C3 (amended): every callback that returns a pending value makes sendMap
fail synchronously with the error RPC map() callbacks cannot be async., and
the rejection of the pending value is silently consumed by an empty catch
handler. -/
theorem c3_async_misuse (b : Bool) :
    sendMap (.asyncPending b) = { recorded := .error asyncCallbackMsg, silenced := true } := rfl

/-- C10: replaying an empty instruction list fails with Invalid empty mapper
function., and the single variable hook the applicator owns at that point (the
input hook) is disposed exactly once on the error exit: the log grows by
exactly one dispose event for it. -/
theorem c10_empty_instructions (host : HostCall) (caps : List Hk) (input : Hk) (t : Trace) :
    applyInstrs host caps input [] t =
      { result := .error emptyMapperMsg, vars := [input],
        trace := { nextId := t.nextId, log := t.log ++ [.disposed input.id] } } := rfl

/-- C2: a concrete completed applyMap call on the plain input 7 with one
capture hook (id 100) and two instructions. The capture is disposed exactly
once, but the per-element input hook (id 0) and the intermediate variable hook
(id 1) are each disposed twice: once by the cleanup in MapApplicator.apply and
once more by MapApplicator.dispose invoked from applyMapToElement. This
contradicts the claim that every variable hook is disposed exactly once. -/
theorem c2_variable_hooks_disposed_twice :
    disposeCount (applyMap host0 [⟨100, .ext⟩] [.pipeline 0 [] none, .pipeline 0 [] none]
        (.value (.vnum 7)) ⟨0, []⟩).2.log 0 = 2 ∧
    disposeCount (applyMap host0 [⟨100, .ext⟩] [.pipeline 0 [] none, .pipeline 0 [] none]
        (.value (.vnum 7)) ⟨0, []⟩).2.log 1 = 2 ∧
    disposeCount (applyMap host0 [⟨100, .ext⟩] [.pipeline 0 [] none, .pipeline 0 [] none]
        (.value (.vnum 7)) ⟨0, []⟩).2.log 100 = 1 := by
  decide

/-- C7: for every variables list V and captures list C of the applicator,
getExport reads V at idx for a non-negative idx and C at -idx-1 for a negative
idx, with JavaScript out-of-range indexing giving undefined. -/
theorem c7_getExport (vl cl : List Hk) (idx : Int) :
    (0 ≤ idx → getExport vl cl idx = vl.get? idx.toNat) ∧
    (idx < 0 → getExport vl cl idx = cl.get? (-idx - 1).toNat) := by
  constructor
  · intro h
    simp [getExport, not_lt.mpr h]
  · intro h
    simp [getExport, h]

/-- C7 witness: index 0 reads the variables list and index -1 reads the first
capture. -/
theorem c7_witness :
    getExport [(⟨0, .ext⟩ : Hk)] [⟨1, .ext⟩] 0 = some ⟨0, .ext⟩ ∧
    getExport [(⟨0, .ext⟩ : Hk)] [⟨1, .ext⟩] (-1) = some ⟨1, .ext⟩ := by
  constructor
  · rw [(c7_getExport [⟨0, .ext⟩] [⟨1, .ext⟩] 0).1 (by decide)]
    rfl
  · rw [(c7_getExport [⟨0, .ext⟩] [⟨1, .ext⟩] (-1)).2 (by decide)]
    rfl

/-- Helper: extending the variables over an appended instruction list runs
the two parts in sequence. -/
theorem extendVars_append (host : HostCall) (caps : List Value) :
    ∀ (xs ys : List Instr) (vars : List Value),
      extendVars host caps (xs ++ ys) vars =
        match extendVars host caps xs vars with
        | .ok w => extendVars host caps ys w
        | .error m => .error m := by
  intro xs
  induction xs with
  | nil => intro ys vars; simp [extendVars]
  | cons i xs ih =>
    intro ys vars
    simp only [List.cons_append, extendVars]
    cases h : evalInstrP host caps vars i with
    | ok v =>
      simp only [h]
      exact ih ys (vars ++ [v])
    | error m => simp only [h]

/-- Helper: recording only appends instructions. -/
theorem recExpr_shape : ∀ (e : CExpr) (ins : List Instr), ∃ d, (recExpr e ins).2 = ins ++ d := by
  intro e
  induction e with
  | input => intro ins; exact ⟨[], by simp [recExpr]⟩
  | get s p ih =>
    intro ins
    obtain ⟨d, hd⟩ := ih ins
    refine ⟨d ++ [.pipeline ((recExpr s ins).1 : Int) p none], ?_⟩
    simp [recExpr, hd]
  | call s p a ih =>
    intro ins
    obtain ⟨d, hd⟩ := ih ins
    refine ⟨d ++ [.pipeline ((recExpr s ins).1 : Int) p (some a)], ?_⟩
    simp [recExpr, hd]

/-- Helper: one unfolding of the replay loop on a list of two or more
instructions. -/
theorem runInstrs_cons_cons (host : HostCall) (caps : List Value) (x y : Instr)
    (ys : List Instr) (vars : List Value) :
    runInstrs host caps (x :: y :: ys) vars =
      match evalInstrP host caps vars x with
      | .ok v => runInstrs host caps (y :: ys) (vars ++ [v])
      | .error m => .error m := rfl

/-- Helper: one unfolding of extendVars. -/
theorem extendVars_cons (host : HostCall) (caps : List Value) (x : Instr)
    (xs : List Instr) (vars : List Value) :
    extendVars host caps (x :: xs) vars =
      match evalInstrP host caps vars x with
      | .ok v => extendVars host caps xs (vars ++ [v])
      | .error m => .error m := rfl

/-- Helper: replay of a non-empty instruction list evaluates every
instruction but the last into the variables and then the last one. -/
theorem runInstrs_snoc (host : HostCall) (caps : List Value) :
    ∀ (xs : List Instr) (last : Instr) (vars : List Value),
      runInstrs host caps (xs ++ [last]) vars =
        match extendVars host caps xs vars with
        | .ok w => evalInstrP host caps w last
        | .error m => .error m := by
  intro xs
  induction xs with
  | nil => intro last vars; simp [runInstrs, extendVars]
  | cons x xs2 ih =>
    intro last vars
    cases hxs : xs2 ++ [last] with
    | nil => simp at hxs
    | cons y ys =>
      rw [List.cons_append, hxs, runInstrs_cons_cons, extendVars_cons]
      cases h : evalInstrP host caps vars x with
      | ok v =>
        simp only [h]
        rw [← hxs]
        exact ih last (vars ++ [v])
      | error m => simp only [h]

/-- Helper: getExport at a natural-number index reads the variables list. -/
theorem getExport_natCast {α : Type} (vl cl : List α) (k : Nat) :
    getExport vl cl (k : Int) = vl.get? k := by
  unfold getExport
  rw [if_neg (not_lt.mpr (Int.natCast_nonneg k))]
  simp

/-- Helper: a pipeline access whose subject variable holds v follows the
path on v. -/
theorem evalInstrP_var_get (host : HostCall) (vars : List Value) (k : Nat) (p : List PathPart)
    (v : Value) (hv : vars.get? k = some v) :
    evalInstrP host [] vars (.pipeline (k : Int) p none) = followPath v p := by
  simp only [evalInstrP]
  rw [getExport_natCast, hv]

/-- Helper: a pipeline call whose subject variable holds v calls through v. -/
theorem evalInstrP_var_call (host : HostCall) (vars : List Value) (k : Nat) (p : List PathPart)
    (a : List Value) (v : Value) (hv : vars.get? k = some v) :
    evalInstrP host [] vars (.pipeline (k : Int) p (some a)) = callValue host v p a := by
  simp only [evalInstrP]
  rw [getExport_natCast, hv]

/-- Helper: soundness of the recorder. Starting from any instruction list already recorded
whose replay has produced a consistent variables list, replaying exactly the
instructions a callback expression appends extends the variables so that the
returned placeholder index holds the direct-execution value of the expression, and
replay fails with precisely the error of direct execution otherwise. -/
theorem recExpr_sound (host : HostCall) (input : Value) :
    ∀ (e : CExpr) (ins0 : List Instr) (vars0 : List Value),
      vars0.get? 0 = some input →
      vars0.length = ins0.length + 1 →
      (∀ v, denote host input e = .ok v →
        ∃ vars1,
          extendVars host [] ((recExpr e ins0).2.drop ins0.length) vars0 = .ok vars1 ∧
          vars1.get? 0 = some input ∧
          vars1.length = (recExpr e ins0).2.length + 1 ∧
          vars1.get? (recExpr e ins0).1 = some v) ∧
      (∀ m, denote host input e = .error m →
        extendVars host [] ((recExpr e ins0).2.drop ins0.length) vars0 = .error m) := by
  intro e
  induction e with
  | input =>
    intro ins0 vars0 h0 hlen
    constructor
    · intro v hv
      refine ⟨vars0, ?_, h0, ?_, ?_⟩
      · simp [recExpr, List.drop_length, extendVars]
      · simpa [recExpr] using hlen
      · simp only [recExpr]
        cases hv
        exact h0
    · intro m hm
      cases hm
  | get s p ih =>
    intro ins0 vars0 h0 hlen
    obtain ⟨d, hd⟩ := recExpr_shape s ins0
    have hdrop : ((recExpr (.get s p) ins0).2).drop ins0.length
        = (recExpr s ins0).2.drop ins0.length ++ [.pipeline ((recExpr s ins0).1 : Int) p none] := by
      simp only [recExpr]
      rw [hd, List.append_assoc, List.drop_left, List.drop_left]
    constructor
    · intro v hv
      cases hs : denote host input s with
      | error m =>
        rw [denote, hs] at hv
        cases hv
      | ok w =>
        rw [denote, hs] at hv
        have hv2 : followPath w p = .ok v := hv
        obtain ⟨vars1, hext, h1, hlen1, hk⟩ := ((ih ins0 vars0 h0 hlen).1 w hs)
        refine ⟨vars1 ++ [v], ?_, ?_, ?_, ?_⟩
        · rw [hdrop, extendVars_append host [] _ _ vars0, hext]
          show extendVars host [] [.pipeline ((recExpr s ins0).1 : Int) p none] vars1
              = .ok (vars1 ++ [v])
          simp only [extendVars]
          rw [evalInstrP_var_get host vars1 (recExpr s ins0).1 p w hk, hv2]
        · rw [List.get?_append]
          · exact h1
          · omega
        · simp only [recExpr, List.length_append, List.length_cons, List.length_nil]
          omega
        · simp only [recExpr]
          rw [← hlen1]
          exact List.get?_concat_length vars1 v
    · intro m hm
      cases hs : denote host input s with
      | error m2 =>
        rw [denote, hs] at hm
        have hm2 : m2 = m := Except.error.inj hm
        subst hm2
        have herr := (ih ins0 vars0 h0 hlen).2 m2 hs
        rw [hdrop, extendVars_append host [] _ _ vars0, herr]
      | ok w =>
        rw [denote, hs] at hm
        have hm2 : followPath w p = .error m := hm
        obtain ⟨vars1, hext, h1, hlen1, hk⟩ := ((ih ins0 vars0 h0 hlen).1 w hs)
        rw [hdrop, extendVars_append host [] _ _ vars0, hext]
        show extendVars host [] [.pipeline ((recExpr s ins0).1 : Int) p none] vars1
            = .error m
        simp only [extendVars]
        rw [evalInstrP_var_get host vars1 (recExpr s ins0).1 p w hk, hm2]
  | call s p a ih =>
    intro ins0 vars0 h0 hlen
    obtain ⟨d, hd⟩ := recExpr_shape s ins0
    have hdrop : ((recExpr (.call s p a) ins0).2).drop ins0.length
        = (recExpr s ins0).2.drop ins0.length ++ [.pipeline ((recExpr s ins0).1 : Int) p (some a)] := by
      simp only [recExpr]
      rw [hd, List.append_assoc, List.drop_left, List.drop_left]
    constructor
    · intro v hv
      cases hs : denote host input s with
      | error m =>
        rw [denote, hs] at hv
        cases hv
      | ok w =>
        rw [denote, hs] at hv
        have hv2 : callValue host w p a = .ok v := hv
        obtain ⟨vars1, hext, h1, hlen1, hk⟩ := ((ih ins0 vars0 h0 hlen).1 w hs)
        refine ⟨vars1 ++ [v], ?_, ?_, ?_, ?_⟩
        · rw [hdrop, extendVars_append host [] _ _ vars0, hext]
          show extendVars host [] [.pipeline ((recExpr s ins0).1 : Int) p (some a)] vars1
              = .ok (vars1 ++ [v])
          simp only [extendVars]
          rw [evalInstrP_var_call host vars1 (recExpr s ins0).1 p a w hk, hv2]
        · rw [List.get?_append]
          · exact h1
          · omega
        · simp only [recExpr, List.length_append, List.length_cons, List.length_nil]
          omega
        · simp only [recExpr]
          rw [← hlen1]
          exact List.get?_concat_length vars1 v
    · intro m hm
      cases hs : denote host input s with
      | error m2 =>
        rw [denote, hs] at hm
        have hm2 : m2 = m := Except.error.inj hm
        subst hm2
        have herr := (ih ins0 vars0 h0 hlen).2 m2 hs
        rw [hdrop, extendVars_append host [] _ _ vars0, herr]
      | ok w =>
        rw [denote, hs] at hm
        have hm2 : callValue host w p a = .error m := hm
        obtain ⟨vars1, hext, h1, hlen1, hk⟩ := ((ih ins0 vars0 h0 hlen).1 w hs)
        rw [hdrop, extendVars_append host [] _ _ vars0, hext]
        show extendVars host [] [.pipeline ((recExpr s ins0).1 : Int) p (some a)] vars1
            = .error m
        simp only [extendVars]
        rw [evalInstrP_var_call host vars1 (recExpr s ins0).1 p a w hk, hm2]

/-- C1: for every callback performing only property accesses and method calls
on the placeholder, recording it with the MapBuilder and replaying the
recorded instruction list against a concrete input (with an empty captures
list) produces exactly the payload of executing the callback directly against
that input, errors included. -/
theorem c1_map_replay_equivalence (host : HostCall) (input : Value) (f : CExpr) :
    applyPure host [] input (record f) = denote host input f := by
  unfold applyPure record
  rw [runInstrs_snoc]
  have hsound := recExpr_sound host input f [] [input] rfl rfl
  simp only [List.length_nil, List.drop_zero] at hsound
  cases hres : denote host input f with
  | ok v =>
    obtain ⟨vars1, hext, h1, hlen1, hk⟩ := hsound.1 v hres
    rw [hext]
    show evalInstrP host [] vars1 (.pipeline ((recExpr f []).1 : Int) [] none) = .ok v
    rw [evalInstrP_var_get host vars1 (recExpr f []).1 [] v hk]
    exact followPath_nil v
  | error m =>
    have herr := hsound.2 m hres
    rw [herr]

/-- Helper: the accumulator loop of the applyMap array case computes, outcome
for outcome, the plain per-element recursion; the payloads gather in element
order. -/
theorem applyElems_outcome (host : HostCall) (caps : List Hk) (instrs : List Instr) :
    ∀ (es : List Value) (acc : List Hk) (t : Trace),
      (applyElems host caps instrs es acc t).1 =
        match (applyElemsSpec host caps instrs es t).1 with
        | .ok ps => .ok (acc ++ ps)
        | .error m => .error m := by
  intro es
  induction es with
  | nil => intro acc t; simp [applyElems, applyElemsSpec]
  | cons e es ih =>
    intro acc t
    simp only [applyElems, applyElemsSpec]
    cases h : applyMapToElement host caps instrs e t with
    | mk r t1 =>
      cases r with
      | ok p =>
        simp only [ih (acc ++ [p]) t1]
        cases h2 : applyElemsSpec host caps instrs es t1 with
        | mk r2 t2 =>
          cases r2 with
          | ok ps => simp
          | error m => simp
      | error m => simp

/-- C4: applyMap performs this case analysis for every captures list and
instruction list: a pending input (RpcPromise) rejects with the promise-misuse
error; an array input applies the instructions once per element and
reassembles the element payloads in order; null and undefined are returned
unchanged as raw payloads; any other input has the instructions applied to it
exactly once. -/
theorem c4_applyMap_cases (host : HostCall) (caps : List Hk) (instrs : List Instr) (t : Trace) :
    ((applyMap host caps instrs .promise t).1 = .error applyMapPromiseMsg) ∧
    (∀ elems : List Value,
      (applyMap host caps instrs (.value (.varr elems)) t).1 =
        match (applyElemsSpec host caps instrs elems t).1 with
        | .ok ps => .ok (.arr ps)
        | .error m => .error m) ∧
    ((applyMap host caps instrs (.value .vnull) t).1 = .ok (.raw .vnull)) ∧
    ((applyMap host caps instrs (.value .vundefined) t).1 = .ok (.raw .vundefined)) ∧
    (∀ v : Value, isSpecialInput v = false →
      (applyMap host caps instrs (.value v) t).1 =
        match (applyMapToElement host caps instrs v t).1 with
        | .ok h => .ok (.one h)
        | .error m => .error m) := by
  refine ⟨rfl, ?_, rfl, rfl, ?_⟩
  · intro elems
    have houtcome := applyElems_outcome host caps instrs elems [] t
    simp only [applyMap]
    cases h : applyElems host caps instrs elems [] t with
    | mk r1 t1 =>
      cases h2 : applyElemsSpec host caps instrs elems t with
      | mk r2 t2 =>
        rw [h, h2] at houtcome
        simp only at houtcome
        cases r2 with
        | ok ps =>
          simp only at houtcome
          subst houtcome
          simp
        | error m =>
          simp only at houtcome
          subst houtcome
          simp
  · intro v hv
    cases v with
    | varr es => simp [isSpecialInput] at hv
    | vnull => simp [isSpecialInput] at hv
    | vundefined => simp [isSpecialInput] at hv
    | vbool b =>
      simp only [applyMap]
      cases h : applyMapToElement host caps instrs (.vbool b) t with
      | mk r t1 => cases r <;> simp
    | vnum n =>
      simp only [applyMap]
      cases h : applyMapToElement host caps instrs (.vnum n) t with
      | mk r t1 => cases r <;> simp
    | vstr s =>
      simp only [applyMap]
      cases h : applyMapToElement host caps instrs (.vstr s) t with
      | mk r t1 => cases r <;> simp
    | vobj fs =>
      simp only [applyMap]
      cases h : applyMapToElement host caps instrs (.vobj fs) t with
      | mk r t1 => cases r <;> simp
    | vfun f =>
      simp only [applyMap]
      cases h : applyMapToElement host caps instrs (.vfun f) t with
      | mk r t1 => cases r <;> simp

/-- C4 witness: the otherwise-branch applied to the number 0 with an empty
instruction list propagates the empty-mapper failure of the single
application. -/
theorem c4_witness :
    (applyMap host0 [] [] (.value (.vnum 0)) ⟨0, []⟩).1 = .error emptyMapperMsg := by
  have h := (c4_applyMap_cases host0 [] [] ⟨0, []⟩).2.2.2.2 (.vnum 0) (by decide)
  rw [h]
  rfl

/-- Helper: a lookup in an association list whose values are all negative
returns a negative value. -/
theorem lookup_all_neg (h : BHook) (r : Int) :
    ∀ cm : List (BHook × Int), cm.all (fun p => p.2 < 0) = true → cm.lookup h = some r → r < 0 := by
  intro cm
  induction cm with
  | nil => intro _ hl; simp [List.lookup] at hl
  | cons p cm ih =>
    intro hall hl
    obtain ⟨k, v⟩ := p
    simp only [List.all_cons, Bool.and_eq_true] at hall
    simp only [List.lookup] at hl
    split at hl
    · cases hl
      exact of_decide_eq_true hall.1
    · exact ih hall.2 hl

/-- Helper: capturing an own placeholder returns its index unchanged. -/
theorem capture_own : ∀ (b : MB) (k : Nat), (MB.capture b (.mapVar (MB.mbId b) k)).1 = (k : Int) := by
  intro b k
  cases b with
  | top i cm caps => simp [MB.capture, MB.mbId, hookOwner, hookIdx]
  | nested i cm caps p => simp [MB.capture, MB.mbId, hookOwner, hookIdx]

/-- Helper: capturing a hook that is not an own placeholder returns a
negative index, given the capture-map invariant. -/
theorem capture_neg : ∀ (b : MB) (h : BHook), mbInv b = true →
    hookOwner h ≠ some (MB.mbId b) → (MB.capture b h).1 < 0 := by
  intro b
  induction b with
  | top i cm caps =>
    intro h hinv hown
    simp only [MB.mbId] at hown
    simp only [mbInv] at hinv
    simp only [MB.capture]
    rw [if_neg hown]
    cases hl : cm.lookup h with
    | some r =>
      simp only [hl]
      exact lookup_all_neg h r cm hinv hl
    | none =>
      simp only [hl]
      simp [List.length_append]
      omega
  | nested i cm caps p ihp =>
    intro h hinv hown
    simp only [MB.mbId] at hown
    simp only [mbInv, Bool.and_eq_true] at hinv
    simp only [MB.capture]
    rw [if_neg hown]
    cases hl : cm.lookup h with
    | some r =>
      simp only [hl]
      exact lookup_all_neg h r cm hinv.1 hl
    | none =>
      simp only [hl]
      simp [List.length_append]
      omega

/-- Helper: capture preserves the capture-map invariant at every level. -/
theorem capture_inv : ∀ (b : MB) (h : BHook), mbInv b = true → mbInv (MB.capture b h).2 = true := by
  intro b
  induction b with
  | top i cm caps =>
    intro h hinv
    simp only [MB.capture]
    by_cases hown : hookOwner h = some i
    · rw [if_pos hown]
      exact hinv
    · rw [if_neg hown]
      cases hl : cm.lookup h with
      | some r =>
        simp only [hl]
        exact hinv
      | none =>
        simp only [hl]
        simp only [mbInv, List.all_cons, Bool.and_eq_true] at hinv ⊢
        refine ⟨?_, hinv⟩
        simp [List.length_append]
        omega
  | nested i cm caps p ihp =>
    intro h hinv
    simp only [mbInv, Bool.and_eq_true] at hinv
    simp only [MB.capture]
    by_cases hown : hookOwner h = some i
    · rw [if_pos hown]
      simp only [mbInv, Bool.and_eq_true]
      exact hinv
    · rw [if_neg hown]
      cases hl : cm.lookup h with
      | some r =>
        simp only [hl]
        simp only [mbInv, Bool.and_eq_true]
        exact hinv
      | none =>
        simp only [hl]
        simp only [mbInv, List.all_cons, Bool.and_eq_true]
        refine ⟨⟨?_, hinv.1⟩, ihp h hinv.2⟩
        simp [List.length_append]
        omega

/-- C6: the Exporter contract of the MapBuilder: exportStub and exportPromise
always fail with the local-target misuse message; getImport always returns an
index (it delegates to capture, which is total): the index of an own
placeholder unchanged, and a negative capture index for every other hook; the
invariant that makes this hold is true of freshly constructed builders and is
preserved by capture. -/
theorem c6_exporter_contract :
    (∀ (b : MB) (h : BHook), MB.exportStub b h = .error exportStubMsg) ∧
    (∀ (b : MB) (h : BHook), MB.exportPromise b h = .error exportStubMsg) ∧
    (∀ (b : MB) (k : Nat), (MB.getImport b (.mapVar (MB.mbId b) k)).1 = (k : Int)) ∧
    (∀ (b : MB) (h : BHook), mbInv b = true → hookOwner h ≠ some (MB.mbId b) →
      (MB.getImport b h).1 < 0) ∧
    (∀ (b : MB) (h : BHook), mbInv b = true → mbInv (MB.getImport b h).2 = true) ∧
    (∀ i : Nat, mbInv (.top i [] []) = true) ∧
    (∀ (i : Nat) (p : MB), mbInv p = true → mbInv (.nested i [] [] p) = true) := by
  refine ⟨fun b h => rfl, fun b h => rfl, capture_own, capture_neg, capture_inv, fun i => rfl, ?_⟩
  intro i p hp
  simp [mbInv, hp]

/-- C6 witness: a fresh top-level builder and a foreign hook. -/
theorem c6_witness :
    MB.exportStub (.top 0 [] []) (.ext 5) = .error exportStubMsg ∧
    (MB.getImport (.top 0 [] []) (.ext 5)).1 < 0 :=
  ⟨c6_exporter_contract.1 (.top 0 [] []) (.ext 5),
   c6_exporter_contract.2.2.2.1 (.top 0 [] []) (.ext 5) (by decide) (by decide)⟩

/-- Helper: after filtering out a key, looking it up finds nothing. -/
theorem lookup_filter_self (id : Int) :
    ∀ l : List (Int × ExportEntry), (l.filter (fun p => p.1 != id)).lookup id = none := by
  intro l
  induction l with
  | nil => rfl
  | cons p l ih =>
    obtain ⟨k, e⟩ := p
    by_cases hk : k = id
    · subst hk
      simpa [List.filter] using ih
    · have hne : (k != id) = true := by simp [bne, hk]
      have hne2 : (id == k) = false := by simp [Ne.symm hk]
      simp [List.filter, hne, List.lookup, hne2, ih]

/-- Helper: pointwise replacing the entry of a key makes lookup return the
new entry, provided the key was present. -/
theorem lookup_map_update (id : Int) (ne2 : ExportEntry) :
    ∀ l : List (Int × ExportEntry), (l.lookup id).isSome = true →
    (l.map (fun p => if p.1 == id then (p.1, ne2) else p)).lookup id = some ne2 := by
  intro l
  induction l with
  | nil => intro hl; simp [List.lookup] at hl
  | cons p l ih =>
    intro hl
    obtain ⟨k, e⟩ := p
    by_cases hk : k = id
    · subst hk
      rw [List.map_cons]
      rw [if_pos (show ((k, e).1 == k) = true by simp)]
      simp [List.lookup]
    · have hne : (k == id) = false := by simp [hk]
      have hne2 : (id == k) = false := by simp [Ne.symm hk]
      simp only [List.lookup, hne2] at hl
      rw [List.map_cons]
      rw [if_neg (show ¬ ((k, e).1 == id) = true by simp [hk])]
      simp only [List.lookup, hne2]
      exact ih hl

/-- Helper: the export branch of handleRelease, with its lookup resolved. -/
theorem handleRelease_export (id n : Int) (s : SessionSt) (e : ExportEntry)
    (hid : id < 0) (hn : 0 < n) (hl : s.exports.lookup id = some e) :
    handleRelease id n s =
      if e.refcount < n then .error "Refcount would go negative"
      else if e.refcount - n = 0 then
        .ok { s with
          exports := s.exports.filter (fun p => p.1 != id),
          exportIdsByTarget := s.exportIdsByTarget.filter (fun p => p.1 != e.target) }
      else
        .ok { s with
          exports := s.exports.map (fun p =>
            if p.1 == id then (p.1, ⟨e.target, e.refcount - n⟩) else p) } := by
  simp only [handleRelease]
  rw [if_neg (by omega), if_neg (by omega), if_neg (by omega), hl]

/-- C9: releasing id 0 is a protocol error; for an export entry, a release by
n that exceeds the refcount is the refcount-would-go-negative protocol error;
otherwise the refcount is decremented by n, the entry disappearing from the
exports table exactly when the count reaches 0. -/
theorem c9_handleRelease :
    (∀ (n : Int) (s : SessionSt), 0 < n →
      handleRelease 0 n s = .error "Attempting to release bootstrap object") ∧
    (∀ (id n : Int) (s : SessionSt) (e : ExportEntry), id < 0 → 0 < n →
      s.exports.lookup id = some e → e.refcount < n →
      handleRelease id n s = .error "Refcount would go negative") ∧
    (∀ (id n : Int) (s : SessionSt) (e : ExportEntry), id < 0 → 0 < n →
      s.exports.lookup id = some e → n ≤ e.refcount →
      match handleRelease id n s with
      | .ok s2 => s2.exports.lookup id =
          (if e.refcount = n then none else some ⟨e.target, e.refcount - n⟩)
      | .error _ => False) := by
  refine ⟨?_, ?_, ?_⟩
  · intro n s hn
    simp [handleRelease, hn]
  · intro id n s e hid hn hl hlt
    rw [handleRelease_export id n s e hid hn hl, if_pos hlt]
  · intro id n s e hid hn hl hge
    rw [handleRelease_export id n s e hid hn hl, if_neg (by omega)]
    by_cases hz : e.refcount - n = 0
    · rw [if_pos hz]
      have heq : e.refcount = n := by omega
      simp only [heq, if_pos rfl]
      exact lookup_filter_self id s.exports
    · rw [if_neg hz]
      have hne : ¬ e.refcount = n := by omega
      simp only [if_neg hne]
      apply lookup_map_update
      simp [hl]

/-- C9 witness: the bootstrap error at id 0 and a refcount underflow on a
concrete table. -/
theorem c9_witness :
    handleRelease 0 1 ⟨[], [], []⟩ = .error "Attempting to release bootstrap object" ∧
    handleRelease (-1) 3 ⟨[], [(-1, ⟨7, 2⟩)], [(7, -1)]⟩ = .error "Refcount would go negative" :=
  ⟨c9_handleRelease.1 1 ⟨[], [], []⟩ (by decide),
   c9_handleRelease.2.1 (-1) 3 ⟨[], [(-1, ⟨7, 2⟩)], [(7, -1)]⟩ ⟨7, 2⟩ (by decide) (by decide)
     (by decide) (by decide)⟩

/-- Helper: leaf evaluation only appends events; result and delta do not
depend on the prior log. -/
theorem wEvalLeaf_shift (env : LiteEnv) (x : WLeaf) (l : List WEvent) :
    wEvalLeaf env x l = ((wEvalLeaf env x []).1, l ++ (wEvalLeaf env x []).2) := by
  cases x with
  | lnull => simp [wEvalLeaf]
  | lbool b => simp [wEvalLeaf]
  | lnum n => simp [wEvalLeaf]
  | lstr s => simp [wEvalLeaf]
  | lundefined => simp [wEvalLeaf]
  | limp id pth =>
    cases pth with
    | none => simp [wEvalLeaf]
    | some p =>
      cases h : env.imports id with
      | true => simp [wEvalLeaf, h]
      | false => simp [wEvalLeaf, h]
  | lexp tg => simp [wEvalLeaf]

/-- Helper: list evaluation only appends events. -/
theorem wEvalLeafList_shift (env : LiteEnv) :
    ∀ (es : List WLeaf) (l : List WEvent),
      wEvalLeafList env es l = ((wEvalLeafList env es []).1, l ++ (wEvalLeafList env es []).2) := by
  intro es
  induction es with
  | nil => intro l; simp [wEvalLeafList]
  | cons e es ih =>
    intro l
    simp only [wEvalLeafList]
    cases h1 : wEvalLeaf env e [] with
    | mk r1 d1 =>
      rw [wEvalLeaf_shift env e l, h1]
      cases r1 with
      | error m => simp
      | ok v =>
        dsimp only
        rw [ih (l ++ d1), ih d1]
        cases h2 : (wEvalLeafList env es []).1 with
        | ok vs => simp
        | error m => simp

/-- Helper: field-value evaluation only appends events. -/
theorem wEvalExpr_shift (env : LiteEnv) (v : WExpr) (l : List WEvent) :
    wEvalExpr env v l = ((wEvalExpr env v []).1, l ++ (wEvalExpr env v []).2) := by
  cases v with
  | leaf x => exact wEvalLeaf_shift env x l
  | escArr es =>
    simp only [wEvalExpr]
    cases h1 : wEvalLeafList env es [] with
    | mk r1 d1 =>
      rw [wEvalLeafList_shift env es l, h1]
      cases r1 with
      | ok vs => simp
      | error m => simp

/-- C5: for every object the codec evaluates successfully, the keys of the
decoded result are exactly the non-forbidden keys in order (every key
colliding with a root-prototype member, and toJSON, is absent); the event log
grows by exactly the concatenation of the evaluation events of every field
value, forbidden keys included (so hooks contained under a dropped key are
still resolved, exactly once each); and every surviving key maps to the
evaluation of its value. -/
theorem c5_evaluateObject (env : LiteEnv) :
    ∀ (flds : List (String × WExpr)) (l : List WEvent) (res : List (String × WValue))
      (l2 : List WEvent),
      evaluateObject env flds l = (.ok res, l2) →
      (res.map Prod.fst = (flds.map Prod.fst).filter (fun k => !(isForbiddenKey k))) ∧
      (l2 = l ++ flds.flatMap (fun kv => (wEvalExpr env kv.2 []).2)) ∧
      (res = flds.filterMap (fun kv =>
        if isForbiddenKey kv.1 then none
        else
          match (wEvalExpr env kv.2 []).1 with
          | .ok w => some (kv.1, w)
          | .error _ => none)) := by
  intro flds
  induction flds with
  | nil =>
    intro l res l2 hev
    simp only [evaluateObject] at hev
    cases hev
    simp
  | cons kv flds ih =>
    intro l res l2 hev
    obtain ⟨k, v⟩ := kv
    simp only [evaluateObject] at hev
    rw [wEvalExpr_shift env v l] at hev
    by_cases hf : isForbiddenKey k
    · rw [if_pos hf] at hev
      cases h1 : (wEvalExpr env v []).1 with
      | error m =>
        rw [h1] at hev
        cases hev
      | ok w =>
        rw [h1] at hev
        dsimp only at hev
        obtain ⟨hkeys, hlog, hres⟩ := ih (l ++ (wEvalExpr env v []).2) res l2 hev
        refine ⟨?_, ?_, ?_⟩
        · simpa [hf] using hkeys
        · rw [hlog]
          simp [List.append_assoc]
        · simpa [hf] using hres
    · rw [if_neg hf] at hev
      cases h1 : (wEvalExpr env v []).1 with
      | error m =>
        rw [h1] at hev
        cases hev
      | ok w =>
        rw [h1] at hev
        dsimp only at hev
        cases h2 : evaluateObject env flds (l ++ (wEvalExpr env v []).2) with
        | mk r2 l3 =>
          rw [h2] at hev
          cases r2 with
          | error m => cases hev
          | ok res2 =>
            dsimp only at hev
            cases hev
            obtain ⟨hkeys, hlog, hres⟩ := ih (l ++ (wEvalExpr env v []).2) res2 _ h2
            refine ⟨?_, ?_, ?_⟩
            · simp only [List.map_cons, hkeys, List.filter]
              simp [hf]
            · rw [hlog]
              simp [List.append_assoc]
            · simp only [List.filterMap_cons, if_neg hf, h1]
              rw [← hres]

/-- C5 witness: an object carrying a forbidden __proto__ key whose value is an
import, and an ordinary key: the decoded keys are exactly the ordinary one. -/
theorem c5_witness :
    ([("y", WValue.wnum 2)].map Prod.fst
      = (([("__proto__", WExpr.leaf (.limp 3 (some []))),
           ("y", WExpr.leaf (.lnum 2))].map Prod.fst).filter
          (fun k => !(isForbiddenKey k)))) :=
  (c5_evaluateObject envW [("__proto__", .leaf (.limp 3 (some []))), ("y", .leaf (.lnum 2))] []
      [("y", .wnum 2)] [.imported 3] rfl).1


end Capnweb
